import Mathlib

/-!
Verification development for `wlg` (src/wlg.c), a workload-mix generator.
The C code is shallowly embedded: `struct timespec` becomes a pair of
integers, C integer division/remainder (truncation toward zero) is
`Int.tdiv`/`Int.tmod`, `uint32_t` values are naturals (with `% 2^32`
where wraparound matters), and IEEE-754 single/double arithmetic is
modelled exactly over `ℚ` by round-to-nearest-even at 24 and 53 bits of
precision (all values arising here are in the normal range, so no
overflow or subnormal handling is needed).
-/

namespace Wlg

/-- `struct timespec`: seconds (`time_t`) and nanoseconds (`long`). -/
structure Timespec where
  tv_sec : Int
  tv_nsec : Int
deriving DecidableEq, Repr

/-- A timespec is normalized when its nanosecond field lies in `[0, 1e9)`. -/
def Timespec.normalized (ts : Timespec) : Prop :=
  0 ≤ ts.tv_nsec ∧ ts.tv_nsec < 1000000000

instance (ts : Timespec) : Decidable ts.normalized := by
  unfold Timespec.normalized; infer_instance

/-- `timespec_add_ms` from src/wlg.c: add `ms` milliseconds (a `uint32_t`)
to `*ts`, carrying nanosecond overflow into the seconds field. -/
def timespec_add_ms (ts : Timespec) (ms : Nat) : Timespec :=
  let sec : Nat := ms / 1000
  let ms' : Nat := ms - sec * 1000
  let nsec : Int := ts.tv_nsec + (ms' * 1000000 : Nat)
  { tv_sec := ts.tv_sec + nsec.tdiv 1000000000 + sec
    tv_nsec := nsec.tmod 1000000000 }

/-- `timespec_add_us` from src/wlg.c: add `us` microseconds (a `uint32_t`). -/
def timespec_add_us (ts : Timespec) (us : Nat) : Timespec :=
  let sec : Nat := us / 1000000
  let us' : Nat := us - sec * 1000000
  let nsec : Int := ts.tv_nsec + (us' * 1000 : Nat)
  { tv_sec := ts.tv_sec + nsec.tdiv 1000000000 + sec
    tv_nsec := nsec.tmod 1000000000 }

/-- `timespec_add_ns` from src/wlg.c: add `ns` nanoseconds (a `uint32_t`). -/
def timespec_add_ns (ts : Timespec) (ns : Nat) : Timespec :=
  let sec : Nat := ns / 1000000000
  let ns' : Nat := ns - sec * 1000000000
  let nsec : Int := ts.tv_nsec + (ns' : Nat)
  { tv_sec := ts.tv_sec + nsec.tdiv 1000000000 + sec
    tv_nsec := nsec.tmod 1000000000 }

/-- `timespec_older` from src/wlg.c: nonzero iff `a` is at or after `b`
(the comment in the source reads "not null if a is older than b, i.e. a > b"). -/
def timespec_older (a b : Timespec) : Bool :=
  if a.tv_sec > b.tv_sec then true
  else if a.tv_sec < b.tv_sec then false
  else if a.tv_nsec ≥ b.tv_nsec then true
  else false

/-- `timespec_subtract` from src/wlg.c: computes `a = a - b` with an
explicit borrow on the nanosecond field. -/
def timespec_subtract (a b : Timespec) : Timespec :=
  let nsec := a.tv_nsec - b.tv_nsec
  let a' : Timespec :=
    if nsec < 0 then { tv_sec := a.tv_sec - 1, tv_nsec := nsec + 1000000000 }
    else { tv_sec := a.tv_sec, tv_nsec := nsec }
  { tv_sec := a'.tv_sec - b.tv_sec, tv_nsec := a'.tv_nsec }

/-- C1: `timespec_older` decides the lexicographic at-or-after relation on
(seconds, nanoseconds); it is reflexive and total. -/
theorem timespec_older_spec (a b : Timespec) :
    (timespec_older a b = true ↔
      (b.tv_sec < a.tv_sec ∨ (a.tv_sec = b.tv_sec ∧ b.tv_nsec ≤ a.tv_nsec))) ∧
    timespec_older a a = true ∧
    (timespec_older a b = true ∨ timespec_older b a = true) := by
  unfold timespec_older
  refine ⟨?_, ?_, ?_⟩ <;> split_ifs <;> simp_all <;> omega

/-- A truncated remainder by `1e9` of a nonnegative integer lies in `[0, 1e9)`. -/
lemma tmod_giga_bounds (x : Int) (hx : 0 ≤ x) :
    0 ≤ x.tmod 1000000000 ∧ x.tmod 1000000000 < 1000000000 := by
  rw [Int.tmod_eq_emod hx (by norm_num)]
  exact ⟨Int.emod_nonneg _ (by norm_num), Int.emod_lt_of_pos _ (by norm_num)⟩

/-- C2: all four arithmetic operations preserve the normalization
invariant `tv_nsec ∈ [0, 1e9)`. -/
theorem timespec_arith_normalized (ts b : Timespec) (ms us ns : Nat)
    (h : ts.normalized) (hb : b.normalized)
    (hms : ms < 2 ^ 32) (hus : us < 2 ^ 32) (hns : ns < 2 ^ 32) :
    (timespec_add_ms ts ms).normalized ∧
    (timespec_add_us ts us).normalized ∧
    (timespec_add_ns ts ns).normalized ∧
    (timespec_subtract ts b).normalized := by
  obtain ⟨h0, h1⟩ := h
  obtain ⟨hb0, hb1⟩ := hb
  refine ⟨?_, ?_, ?_, ?_⟩
  · exact tmod_giga_bounds _ (by positivity)
  · exact tmod_giga_bounds _ (by positivity)
  · exact tmod_giga_bounds _ (by positivity)
  · unfold timespec_subtract Timespec.normalized
    dsimp only
    split_ifs <;> dsimp only <;> constructor <;> omega

/-- C2 witness: concrete evaluation of the normalization invariant. -/
theorem timespec_arith_normalized_witness :
    (Timespec.mk 3 999999999).normalized ∧ (Timespec.mk 0 1).normalized ∧
    (3:Nat) < 2 ^ 32 ∧ (5:Nat) < 2 ^ 32 ∧ (7:Nat) < 2 ^ 32 ∧
    ((timespec_add_ms ⟨3, 999999999⟩ 3).normalized ∧
     (timespec_add_us ⟨3, 999999999⟩ 5).normalized ∧
     (timespec_add_ns ⟨3, 999999999⟩ 7).normalized ∧
     (timespec_subtract ⟨3, 999999999⟩ ⟨0, 1⟩).normalized) :=
  ⟨by decide, by decide, by decide, by decide, by decide,
    timespec_arith_normalized ⟨3, 999999999⟩ ⟨0, 1⟩ 3 5 7
      (by decide) (by decide) (by decide) (by decide) (by decide)⟩

/-- C3: adding `d` microseconds to a normalized instant and subtracting the
instant back yields exactly `d` microseconds as a normalized
(seconds, nanoseconds) pair. -/
theorem add_us_subtract_roundtrip (t : Timespec) (d : Nat)
    (h : t.normalized) (hd : d < 2 ^ 32) :
    timespec_subtract (timespec_add_us t d) t =
      ⟨(d / 1000000 : Nat), ((d % 1000000) * 1000 : Nat)⟩ ∧
    (timespec_subtract (timespec_add_us t d) t).normalized := by
  obtain ⟨h0, h1⟩ := h
  have hsub : d - d / 1000000 * 1000000 = d % 1000000 := by omega
  have hrlt : d % 1000000 * 1000 < 1000000000 := by
    have := Nat.mod_lt d (show 0 < 1000000 by norm_num)
    omega
  have hpos : (0:Int) ≤ t.tv_nsec + ((d - d / 1000000 * 1000000) * 1000 : Nat) := by
    positivity
  have htd := Int.tdiv_eq_ediv hpos (show (0:Int) ≤ 1000000000 by norm_num)
  have htm := Int.tmod_eq_emod hpos (show (0:Int) ≤ 1000000000 by norm_num)
  unfold timespec_add_us timespec_subtract
  dsimp only
  rw [htd, htm]
  have hcast : ((d - d / 1000000 * 1000000) * 1000 : Nat) =
      ((d % 1000000 * 1000 : Nat) : Int) := by rw [hsub]
  rw [hcast]
  constructor
  · split_ifs <;> simp only [Timespec.mk.injEq] <;> constructor <;> omega
  · unfold Timespec.normalized
    split_ifs <;> dsimp only <;> constructor <;> omega

/-- C3 witness: concrete round-trip evaluation. -/
theorem add_us_subtract_roundtrip_witness :
    (Timespec.mk 1 999999000).normalized ∧ (1500001:Nat) < 2 ^ 32 ∧
    (timespec_subtract (timespec_add_us ⟨1, 999999000⟩ 1500001) ⟨1, 999999000⟩ =
      ⟨1, 500001000⟩ ∧
     (timespec_subtract (timespec_add_us ⟨1, 999999000⟩ 1500001) ⟨1, 999999000⟩).normalized) :=
  ⟨by decide, by decide, by
    have := add_us_subtract_roundtrip ⟨1, 999999000⟩ 1500001 (by decide) (by decide)
    simpa using this⟩

/-! ### Exact model of the IEEE-754 arithmetic used by `worker_periodic`
and `normal_random` (src/wlg.c lines 288-295 and 342-373). -/

/-- `2^e` over `ℚ` for an integer exponent. -/
def qpow2 (e : Int) : ℚ := (2:ℚ) ^ e

lemma qpow2_pos (e : Int) : 0 < qpow2 e := zpow_pos (by norm_num) e

/-- Fuel-driven binary logarithm (kernel-reducible, unlike `Nat.log2`,
so that concrete rounding computations can be settled by `decide`). -/
def log2F : Nat → Nat → Nat
  | 0, _ => 0
  | fuel+1, n => if 2 ≤ n then log2F fuel (n / 2) + 1 else 0

/-- Floor binary logarithm of a natural number. -/
def nlog2 (n : Nat) : Nat := log2F n n

lemma log2F_eq (fuel n : Nat) (h : n ≤ fuel) : log2F fuel n = Nat.log2 n := by
  induction fuel generalizing n with
  | zero =>
    have hn : n = 0 := by omega
    subst hn
    simp [log2F, Nat.log2_zero]
  | succ f ih =>
    rw [log2F]
    conv_rhs => rw [Nat.log2]
    by_cases h2 : 2 ≤ n
    · rw [if_pos h2, if_pos h2, ih (n / 2) (by omega)]
    · rw [if_neg h2, if_neg h2]

lemma nlog2_eq (n : Nat) : nlog2 n = Nat.log2 n := log2F_eq n n (le_refl n)

/-- `⌊log₂ q⌋` for a positive rational `q`, computed from the binary
logarithms of numerator and denominator with a one-step correction. -/
def ilog2 (q : ℚ) : Int :=
  let e0 : Int := (nlog2 q.num.toNat : Int) - (nlog2 q.den : Int)
  if qpow2 (e0 + 1) ≤ q then e0 + 1
  else if qpow2 e0 ≤ q then e0
  else e0 - 1

/-- Round a rational to an integer, round to nearest, ties to even. -/
def rint (x : ℚ) : Int :=
  let fl : Int := ⌊x⌋
  let fr : ℚ := x - fl
  if fr < 1/2 then fl
  else if 1/2 < fr then fl + 1
  else if fl % 2 = 0 then fl else fl + 1

/-- Round a nonnegative rational to `p` significant bits, round to nearest,
ties to even: exactly IEEE-754 rounding in the normal range (`p = 24` for
`float`, `p = 53` for `double`; every value arising in `wlg`'s arithmetic
is far from both the overflow and the subnormal range). -/
def rnd (p : Nat) (q : ℚ) : ℚ :=
  if q = 0 then 0
  else
    let s : Int := ilog2 q - ((p : Int) - 1)
    (rint (q / qpow2 s) : ℚ) * qpow2 s

/-- The numerator/denominator estimate bounds `q` from above:
`q < 2 ^ (log₂ num - log₂ den + 1)`. -/
lemma q_lt_qpow2_e0_succ {q : ℚ} (hq : 0 < q) :
    q < qpow2 ((nlog2 q.num.toNat : Int) - (nlog2 q.den : Int) + 1) := by
  simp only [nlog2_eq]
  set a := Nat.log2 q.num.toNat with ha
  set b := Nat.log2 q.den with hb
  have hnum : 0 < q.num := Rat.num_pos.mpr hq
  have hn0 : q.num.toNat ≠ 0 := by omega
  have hd0 : q.den ≠ 0 := q.den_nz
  have hn2 : (q.num.toNat : ℚ) < 2 ^ (a + 1) := by
    exact_mod_cast Nat.cast_lt.mpr (Nat.lt_log2_self (n := q.num.toNat))
  have hd1 : (2:ℚ) ^ b ≤ (q.den : ℚ) := by
    exact_mod_cast Nat.cast_le.mpr (Nat.log2_self_le hd0)
  have htn : ((q.num.toNat : Int)) = q.num := Int.toNat_of_nonneg hnum.le
  have hcast : ((q.num.toNat : ℚ)) = ((q.num : ℚ)) := by exact_mod_cast htn
  have hqeq : q = (q.num.toNat : ℚ) / (q.den : ℚ) := by
    rw [hcast]; exact (Rat.num_div_den q).symm
  have hden_pos : (0:ℚ) < (q.den : ℚ) := by positivity
  have hpow : qpow2 ((a : Int) - (b : Int) + 1) = (2:ℚ) ^ (a + 1) / (2:ℚ) ^ b := by
    unfold qpow2
    rw [show ((a : Int) - (b : Int) + 1) = ((a : Int) + 1) - (b : Int) by ring,
      zpow_sub₀ (by norm_num : (2:ℚ) ≠ 0)]
    norm_num [zpow_add₀ (by norm_num : (2:ℚ) ≠ 0), zpow_natCast]
    ring
  rw [hpow, hqeq, div_lt_div_iff hden_pos (by positivity)]
  calc (q.num.toNat : ℚ) * (2:ℚ) ^ b < 2 ^ (a + 1) * (2:ℚ) ^ b := by
        exact mul_lt_mul_of_pos_right hn2 (by positivity)
    _ ≤ 2 ^ (a + 1) * (q.den : ℚ) := by
        exact mul_le_mul_of_nonneg_left hd1 (by positivity)

/-- The numerator/denominator estimate bounds `q` from below:
`2 ^ (log₂ num - log₂ den - 1) < q`. -/
lemma qpow2_e0_pred_lt_q {q : ℚ} (hq : 0 < q) :
    qpow2 ((nlog2 q.num.toNat : Int) - (nlog2 q.den : Int) - 1) < q := by
  simp only [nlog2_eq]
  set a := Nat.log2 q.num.toNat with ha
  set b := Nat.log2 q.den with hb
  have hnum : 0 < q.num := Rat.num_pos.mpr hq
  have hn0 : q.num.toNat ≠ 0 := by omega
  have hd0 : q.den ≠ 0 := q.den_nz
  have hn1 : (2:ℚ) ^ a ≤ (q.num.toNat : ℚ) := by
    exact_mod_cast Nat.cast_le.mpr (Nat.log2_self_le hn0)
  have hd2 : (q.den : ℚ) < 2 ^ (b + 1) := by
    exact_mod_cast Nat.cast_lt.mpr (Nat.lt_log2_self (n := q.den))
  have htn : ((q.num.toNat : Int)) = q.num := Int.toNat_of_nonneg hnum.le
  have hcast : ((q.num.toNat : ℚ)) = ((q.num : ℚ)) := by exact_mod_cast htn
  have hqeq : q = (q.num.toNat : ℚ) / (q.den : ℚ) := by
    rw [hcast]; exact (Rat.num_div_den q).symm
  have hden_pos : (0:ℚ) < (q.den : ℚ) := by positivity
  have hpow : qpow2 ((a : Int) - (b : Int) - 1) = (2:ℚ) ^ a / (2:ℚ) ^ (b + 1) := by
    unfold qpow2
    rw [show ((a : Int) - (b : Int) - 1) = ((a : Int)) - ((b : Int) + 1) by ring,
      zpow_sub₀ (by norm_num : (2:ℚ) ≠ 0)]
    norm_num [zpow_add₀ (by norm_num : (2:ℚ) ≠ 0), zpow_natCast]
    ring
  rw [hpow, hqeq, div_lt_div_iff (by positivity) hden_pos]
  calc (2:ℚ) ^ a * (q.den : ℚ) < 2 ^ a * 2 ^ (b + 1) := by
        exact mul_lt_mul_of_pos_left hd2 (by positivity)
    _ ≤ (q.num.toNat : ℚ) * 2 ^ (b + 1) := by
        exact mul_le_mul_of_nonneg_right hn1 (by positivity)

/-- `ilog2` is a correct lower binary logarithm: `2 ^ ilog2 q ≤ q`. -/
lemma qpow2_ilog2_le {q : ℚ} (hq : 0 < q) : qpow2 (ilog2 q) ≤ q := by
  unfold ilog2
  dsimp only
  split_ifs with h1 h2
  · exact h1
  · exact h2
  · exact (qpow2_e0_pred_lt_q hq).le

/-- `ilog2` is a correct upper binary logarithm: `q < 2 ^ (ilog2 q + 1)`. -/
lemma q_lt_qpow2_ilog2_succ {q : ℚ} (hq : 0 < q) : q < qpow2 (ilog2 q + 1) := by
  unfold ilog2
  dsimp only
  split_ifs with h1 h2
  · exact absurd h1 (not_le.mpr (q_lt_qpow2_e0_succ hq))
  · exact q_lt_qpow2_e0_succ hq
  · simpa using not_le.mp h2

lemma rint_nonneg {x : ℚ} (hx : 0 ≤ x) : 0 ≤ rint x := by
  unfold rint
  have hfl : (0:Int) ≤ ⌊x⌋ := Int.floor_nonneg.mpr hx
  dsimp only
  split_ifs <;> omega

lemma rint_le (x : ℚ) : (rint x : ℚ) ≤ x + 1/2 := by
  unfold rint
  have h1 : (⌊x⌋ : ℚ) ≤ x := Int.floor_le x
  have h2 : x - 1 < (⌊x⌋ : ℚ) := by
    have := Int.lt_floor_add_one x; linarith
  dsimp only
  split_ifs with hlt hgt heven <;> push_cast <;> linarith

lemma ge_rint (x : ℚ) : x - 1/2 ≤ (rint x : ℚ) := by
  unfold rint
  have h1 : (⌊x⌋ : ℚ) ≤ x := Int.floor_le x
  have h2 : x - 1 < (⌊x⌋ : ℚ) := by
    have := Int.lt_floor_add_one x; linarith
  dsimp only
  split_ifs with hlt hgt heven <;> push_cast <;> linarith

lemma rint_intCast (n : Int) : rint (n : ℚ) = n := by
  unfold rint
  simp [Int.floor_intCast]

/-- Rounding preserves nonnegativity. -/
lemma rnd_nonneg (p : Nat) {q : ℚ} (hq : 0 ≤ q) : 0 ≤ rnd p q := by
  unfold rnd
  split_ifs with h0
  · exact le_refl 0
  · have hqpos : 0 < q := lt_of_le_of_ne hq (Ne.symm h0)
    have hs := qpow2_pos (ilog2 q - ((p : Int) - 1))
    have hn : (0:Int) ≤ rint (q / qpow2 (ilog2 q - ((p : Int) - 1))) :=
      rint_nonneg (by positivity)
    dsimp only
    exact mul_nonneg (by exact_mod_cast hn) hs.le

/-- Relative rounding-error bound: `rnd p q ≤ q + q / 2^p` for `q ≥ 0`. -/
lemma rnd_le (p : Nat) {q : ℚ} (hq : 0 ≤ q) : rnd p q ≤ q + q / 2 ^ p := by
  unfold rnd
  split_ifs with h0
  · positivity
  · have hqpos : 0 < q := lt_of_le_of_ne hq (Ne.symm h0)
    set s : Int := ilog2 q - ((p : Int) - 1) with hs
    have hsp := qpow2_pos s
    dsimp only
    have hb : (rint (q / qpow2 s) : ℚ) ≤ q / qpow2 s + 1/2 := rint_le _
    have step1 : (rint (q / qpow2 s) : ℚ) * qpow2 s ≤ q + qpow2 s / 2 := by
      have h := mul_le_mul_of_nonneg_right hb hsp.le
      have hexp : (q / qpow2 s + 1/2) * qpow2 s = q + qpow2 s / 2 := by
        rw [add_mul, div_mul_cancel₀ _ (ne_of_gt hsp)]; ring
      rw [hexp] at h
      exact h
    have step2 : qpow2 s / 2 ≤ q / 2 ^ p := by
      have h1 : qpow2 s / 2 = qpow2 (ilog2 q) / 2 ^ p := by
        unfold qpow2
        rw [hs, zpow_sub₀ (by norm_num : (2:ℚ) ≠ 0)]
        rw [zpow_sub₀ (by norm_num : (2:ℚ) ≠ 0), zpow_one, zpow_natCast]
        ring
      rw [h1]
      exact div_le_div_of_nonneg_right (qpow2_ilog2_le hqpos) (by positivity) |>.trans
        (le_refl _)
    linarith [step1, step2]

/-- `rnd` is the identity on naturals below `2^p`: integers exactly
representable at precision `p` are not altered by rounding. -/
lemma rnd_natCast_fix (p : Nat) (hp : 1 ≤ p) {k : Nat} (hk : k < 2 ^ p) :
    rnd p (k : ℚ) = k := by
  rcases Nat.eq_zero_or_pos k with hk0 | hkpos
  · subst hk0; simp [rnd]
  · have hkq : (0:ℚ) < k := by exact_mod_cast hkpos
    have hne : ((k:ℚ)) ≠ 0 := ne_of_gt hkq
    have hilog : ilog2 (k : ℚ) = (Nat.log2 k : Int) := by
      unfold ilog2
      have hnum : ((k:ℚ)).num.toNat = k := by
        rw [Rat.num_natCast]; exact Int.toNat_natCast k
      have hden : ((k:ℚ)).den = 1 := Rat.den_natCast k
      rw [hnum, hden]
      dsimp only
      have hlog1 : nlog2 1 = 0 := by decide
      rw [nlog2_eq k, hlog1]
      have hcond1 : ¬ qpow2 ((Nat.log2 k : Int) - (0:Nat) + 1) ≤ (k:ℚ) := by
        push_neg
        have : (k:ℚ) < (2:ℚ) ^ (Nat.log2 k + 1) := by
          exact_mod_cast Nat.cast_lt.mpr (Nat.lt_log2_self (n := k))
        calc (k:ℚ) < (2:ℚ) ^ (Nat.log2 k + 1) := this
          _ = qpow2 ((Nat.log2 k : Int) - (0:Nat) + 1) := by
              unfold qpow2
              rw [show ((Nat.log2 k : Int) - ((0:Nat):Int) + 1) =
                ((Nat.log2 k + 1 : Nat) : Int) by push_cast; ring, zpow_natCast]
      have hcond2 : qpow2 ((Nat.log2 k : Int) - (0:Nat)) ≤ (k:ℚ) := by
        have : (2:ℚ) ^ (Nat.log2 k) ≤ (k:ℚ) := by
          exact_mod_cast Nat.cast_le.mpr (Nat.log2_self_le (by omega))
        calc qpow2 ((Nat.log2 k : Int) - (0:Nat)) = (2:ℚ) ^ (Nat.log2 k) := by
              unfold qpow2
              rw [show ((Nat.log2 k : Int) - ((0:Nat):Int)) =
                ((Nat.log2 k : Nat) : Int) by push_cast; ring, zpow_natCast]
          _ ≤ (k:ℚ) := this
      rw [if_neg hcond1, if_pos hcond2]
      push_cast
      ring
    have hlog_lt : Nat.log2 k < p := (Nat.log2_lt (by omega)).mpr hk
    set m : Nat := p - 1 - Nat.log2 k with hm
    have hs : ilog2 (k:ℚ) - ((p:Int) - 1) = -(m : Int) := by
      rw [hilog]; omega
    unfold rnd
    rw [if_neg hne]
    dsimp only
    rw [hs]
    have hqp : qpow2 (-(m:Int)) = ((2:ℚ) ^ m)⁻¹ := by
      unfold qpow2; rw [zpow_neg, zpow_natCast]
    rw [hqp]
    have hscaled : (k:ℚ) / ((2:ℚ) ^ m)⁻¹ = (((k * 2 ^ m : Nat) : Int) : ℚ) := by
      rw [div_eq_mul_inv, inv_inv]; push_cast; ring
    rw [hscaled, rint_intCast]
    push_cast
    have h2m : ((2:ℚ) ^ m) ≠ 0 := by positivity
    field_simp

/-- `(float)x` for a nonnegative integer `x`: round to single precision. -/
def floatOfNat (x : Nat) : ℚ := rnd 24 (x : ℚ)

/-- `worker_periodic`'s processing-time computation (src/wlg.c:349-350):
`process = (float)duration * ((float)duty_cycle / 100.0)`, the division and
the product each evaluated (and rounded) in double precision, the result
truncated to `uint32_t`. -/
def periodic_process (duration duty_cycle : Nat) : Nat :=
  (⌊rnd 53 (floatOfNat duration * rnd 53 (floatOfNat duty_cycle / 100))⌋).toNat

/-- `worker_periodic`'s sleep computation (src/wlg.c:351):
`sleep = duration - process` in `uint32_t` arithmetic (wraps modulo `2^32`). -/
def periodic_sleep (duration duty_cycle : Nat) : Nat :=
  (((duration : Int) - (periodic_process duration duty_cycle : Int)) % (2 ^ 32)).toNat

/-- glibc `RAND_MAX`. -/
def RAND_MAX : Nat := 2147483647

/-- `normal_random` (src/wlg.c:288-295): `max_value` widened to `double`,
multiplied by the raw `random()` draw `r` (both conversions exact below
`2^53`), divided by `RAND_MAX`, product and quotient each rounded in double
precision, then truncated to `uint32_t`. -/
def normal_random (max_value r : Nat) : Nat :=
  (⌊rnd 53 (rnd 53 ((max_value : ℚ) * (r : ℚ)) / (RAND_MAX : ℚ))⌋).toNat

/-- C5: for every possible draw `r` of the random source in `[0, RAND_MAX]`
and every `uint32_t` bound, `normal_random` returns a value in the closed
interval `[0, max_value]`; in particular an Interactive worker never sleeps
longer than `interval_max` microseconds in one iteration. -/
theorem normal_random_le (M r : Nat) (hM : M < 2 ^ 32) (hr : r ≤ RAND_MAX) :
    normal_random M r ≤ M := by
  unfold normal_random
  have hy1 : (0:ℚ) ≤ (M : ℚ) * (r : ℚ) := by positivity
  have hv1 := rnd_le 53 hy1
  have hv1n := rnd_nonneg 53 hy1
  set v1 := rnd 53 ((M : ℚ) * (r : ℚ)) with hv1def
  have hRM : (0:ℚ) < (RAND_MAX : ℚ) := by norm_num [RAND_MAX]
  have hq : (0:ℚ) ≤ v1 / (RAND_MAX : ℚ) := by positivity
  have hv2 := rnd_le 53 hq
  have hr' : (r : ℚ) ≤ (RAND_MAX : ℚ) := by exact_mod_cast hr
  have hM32 : (M : ℚ) ≤ 2 ^ 32 := by exact_mod_cast hM.le
  have hMnn : (0:ℚ) ≤ (M:ℚ) := by positivity
  have h2 : v1 / (RAND_MAX : ℚ) ≤ (M:ℚ) * (1 + 1 / 2 ^ 53) := by
    rw [div_le_iff hRM]
    calc v1 ≤ (M:ℚ) * r + ((M:ℚ) * r) / 2 ^ 53 := hv1
      _ = (M:ℚ) * (r:ℚ) * (1 + 1 / 2 ^ 53) := by ring
      _ ≤ (M:ℚ) * (RAND_MAX:ℚ) * (1 + 1 / 2 ^ 53) := by nlinarith
      _ = (M:ℚ) * (1 + 1 / 2 ^ 53) * (RAND_MAX:ℚ) := by ring
  have h3 : rnd 53 (v1 / (RAND_MAX : ℚ)) < (M:ℚ) + 1 := by
    have hd : (v1 / (RAND_MAX:ℚ)) / 2 ^ 53 ≤ ((M:ℚ) * (1 + 1/2^53)) / 2 ^ 53 :=
      div_le_div_of_nonneg_right h2 (by positivity) |>.trans (le_refl _)
    have hexp : (M:ℚ) * (1 + 1/2^53) + ((M:ℚ) * (1 + 1/2^53)) / 2 ^ 53 =
        (M:ℚ) + (M:ℚ) * (2/2^53 + 1/2^106) := by ring
    have hsmall : (M:ℚ) * (2/2^53 + 1/2^106) ≤ (2^32:ℚ) * (2/2^53 + 1/2^106) :=
      mul_le_mul_of_nonneg_right hM32 (by norm_num)
    have hlit : ((2:ℚ)^32) * (2/2^53 + 1/2^106) < 1 := by norm_num
    calc rnd 53 (v1 / (RAND_MAX:ℚ))
        ≤ v1 / (RAND_MAX:ℚ) + (v1 / (RAND_MAX:ℚ)) / 2 ^ 53 := hv2
      _ ≤ (M:ℚ) * (1 + 1/2^53) + ((M:ℚ) * (1 + 1/2^53)) / 2 ^ 53 := by linarith
      _ < (M:ℚ) + 1 := by rw [hexp]; linarith
  have hfl : ⌊rnd 53 (v1 / (RAND_MAX:ℚ))⌋ < (M:Int) + 1 := by
    apply Int.floor_lt.mpr
    push_cast
    exact h3
  omega

/-- C5 witness: the extreme draw `r = RAND_MAX` stays within the bound. -/
theorem normal_random_le_witness :
    (1000:Nat) < 2 ^ 32 ∧ RAND_MAX ≤ RAND_MAX ∧ normal_random 1000 RAND_MAX ≤ 1000 :=
  ⟨by decide, le_refl _, normal_random_le 1000 RAND_MAX (by decide) (le_refl _)⟩

set_option maxRecDepth 100000 in
attribute [local semireducible] Rat.add Rat.mul Rat.inv Rat.sub in
/-- C4 counterexample: at period P = 16777217 µs (not representable in
single precision) and duty_cycle = 100, the code computes
process = 16777216, while integer truncation of P·D/100 gives 16777217;
in particular duty_cycle = 100 does not give zero sleep time here. -/
theorem periodic_duty_counterexample :
    periodic_process 16777217 100 ≠ 16777217 * 100 / 100 ∧
    ¬(periodic_process 16777217 100 = 16777217 ∧ periodic_sleep 16777217 100 = 0) := by
  refine ⟨by decide, ?_⟩
  intro h
  exact absurd h.1 (by decide)

/-- C4 (amended): `process` is the double-precision value
`(float)P * ((float)D/100.0)` truncated, which matches `P*D/100` only up
to floating-point rounding; `duty_cycle = 0` gives zero processing time
and `sleep = P`, and `duty_cycle = 100` gives `process = P` and zero sleep
time whenever `P < 2^24` (exactly representable in single precision). -/
theorem periodic_duty_split (P D : Nat) (hP32 : P < 2 ^ 32) (hD : D ≤ 100) :
    (D = 0 → periodic_process P D = 0 ∧ periodic_sleep P D = P) ∧
    (D = 100 → P < 2 ^ 24 → periodic_process P D = P ∧ periodic_sleep P D = 0) := by
  constructor
  · rintro rfl
    have hf0 : floatOfNat 0 = 0 := by simp [floatOfNat, rnd]
    have hr0 : rnd 53 (floatOfNat 0 / 100) = 0 := by rw [hf0]; norm_num [rnd]
    have hp0 : rnd 53 (floatOfNat P * rnd 53 (floatOfNat 0 / 100)) = 0 := by
      rw [hr0]; simp [rnd]
    have hproc : periodic_process P 0 = 0 := by
      unfold periodic_process
      rw [hp0]
      simp
    refine ⟨hproc, ?_⟩
    unfold periodic_sleep
    rw [hproc]
    have : ((P:Int) - ((0:Nat):Int)) % 2 ^ 32 = (P:Int) := by omega
    rw [this]
    omega
  · rintro rfl hP24
    have hf100 : floatOfNat 100 = 100 := by
      have := rnd_natCast_fix 24 (by norm_num) (show (100:Nat) < 2 ^ 24 by norm_num)
      simpa [floatOfNat] using this
    have hone : rnd 53 (floatOfNat 100 / 100) = 1 := by
      rw [hf100]
      have h1 : ((100:ℚ)) / 100 = ((1:Nat):ℚ) := by norm_num
      rw [h1, rnd_natCast_fix 53 (by norm_num) (show (1:Nat) < 2 ^ 53 by norm_num)]
      norm_num
    have hfP : floatOfNat P = (P:ℚ) :=
      rnd_natCast_fix 24 (by norm_num) hP24
    have hprod : rnd 53 (floatOfNat P * rnd 53 (floatOfNat 100 / 100)) = (P:ℚ) := by
      rw [hone, hfP, mul_one]
      exact rnd_natCast_fix 53 (by norm_num) (lt_trans hP24 (by norm_num))
    have hproc : periodic_process P 100 = P := by
      unfold periodic_process
      rw [hprod, Int.floor_natCast]
      exact Int.toNat_natCast P
    refine ⟨hproc, ?_⟩
    unfold periodic_sleep
    rw [hproc]
    omega

/-- C4 witness: a single-precision-exact period splits exactly. -/
theorem periodic_duty_split_witness :
    (1000:Nat) < 2 ^ 32 ∧ (100:Nat) ≤ 100 ∧
    (periodic_process 1000 100 = 1000 ∧ periodic_sleep 1000 100 = 0) :=
  ⟨by decide, by decide,
    (periodic_duty_split 1000 100 (by decide) (by decide)).2 rfl (by decide)⟩

set_option maxRecDepth 100000 in
attribute [local semireducible] Rat.add Rat.mul Rat.inv Rat.sub in
/-- C10 counterexample: at P = 16777219, D = 100 the single-precision
conversion rounds the period up, `process = 16777220 > P`, and the
unsigned subtraction wraps: the worker would sleep 4294967295 µs. -/
theorem periodic_sleep_wrap_counterexample :
    periodic_process 16777219 100 = 16777220 ∧
    16777219 < periodic_process 16777219 100 ∧
    periodic_sleep 16777219 100 = 4294967295 := by
  refine ⟨by decide, by decide, by decide⟩

/-- C10 (amended): for periods exactly representable in single precision
(`P < 2^24`) and any duty cycle `D ≤ 100`, the computed `process` never
exceeds `P`, so `sleep = P - process` does not wrap around. -/
theorem periodic_process_le (P D : Nat) (hP : P < 2 ^ 24) (hD : D ≤ 100) :
    periodic_process P D ≤ P ∧
    periodic_sleep P D = P - periodic_process P D := by
  have hfD : floatOfNat D = (D:ℚ) :=
    rnd_natCast_fix 24 (by norm_num) (lt_of_le_of_lt hD (by norm_num))
  have hxnn : (0:ℚ) ≤ floatOfNat D / 100 := by rw [hfD]; positivity
  have hratio_nn : 0 ≤ rnd 53 (floatOfNat D / 100) := rnd_nonneg 53 hxnn
  have hratio_le : rnd 53 (floatOfNat D / 100) ≤ 1 := by
    rcases eq_or_lt_of_le hD with h100 | hlt
    · rw [hfD, h100]
      have h1 : ((100:Nat):ℚ) / 100 = ((1:Nat):ℚ) := by norm_num
      rw [h1, rnd_natCast_fix 53 (by norm_num) (show (1:Nat) < 2 ^ 53 by norm_num)]
      norm_num
    · have hx99 : floatOfNat D / 100 ≤ 99 / 100 := by
        rw [hfD]
        have : (D:ℚ) ≤ 99 := by exact_mod_cast Nat.le_of_lt_succ hlt
        linarith
      calc rnd 53 (floatOfNat D / 100)
          ≤ floatOfNat D / 100 + (floatOfNat D / 100) / 2 ^ 53 := rnd_le 53 hxnn
        _ ≤ 99 / 100 + (99 / 100) / 2 ^ 53 := by
            have := div_le_div_of_nonneg_right hx99 (show (0:ℚ) ≤ 2 ^ 53 by positivity)
            linarith
        _ ≤ 1 := by norm_num
  have hfP : floatOfNat P = (P:ℚ) := rnd_natCast_fix 24 (by norm_num) hP
  have hynn : (0:ℚ) ≤ floatOfNat P * rnd 53 (floatOfNat D / 100) := by
    rw [hfP]; positivity
  have hyle : floatOfNat P * rnd 53 (floatOfNat D / 100) ≤ (P:ℚ) := by
    rw [hfP]
    calc (P:ℚ) * rnd 53 (floatOfNat D / 100) ≤ (P:ℚ) * 1 :=
          mul_le_mul_of_nonneg_left hratio_le (by positivity)
      _ = (P:ℚ) := mul_one _
  have hPd : (P:ℚ) / 2 ^ 53 < 1 := by
    rw [div_lt_one (by positivity)]
    calc (P:ℚ) < 2 ^ 24 := by exact_mod_cast hP
      _ < 2 ^ 53 := by norm_num
  have hprod_lt : rnd 53 (floatOfNat P * rnd 53 (floatOfNat D / 100)) < (P:ℚ) + 1 := by
    calc rnd 53 (floatOfNat P * rnd 53 (floatOfNat D / 100))
        ≤ floatOfNat P * rnd 53 (floatOfNat D / 100)
          + (floatOfNat P * rnd 53 (floatOfNat D / 100)) / 2 ^ 53 := rnd_le 53 hynn
      _ ≤ (P:ℚ) + (P:ℚ) / 2 ^ 53 := by
          have := div_le_div_of_nonneg_right hyle (show (0:ℚ) ≤ 2 ^ 53 by positivity)
          linarith
      _ < (P:ℚ) + 1 := by linarith
  have hfl : ⌊rnd 53 (floatOfNat P * rnd 53 (floatOfNat D / 100))⌋ < (P:Int) + 1 := by
    apply Int.floor_lt.mpr
    push_cast
    exact hprod_lt
  have hproc_le : periodic_process P D ≤ P := by
    unfold periodic_process
    omega
  refine ⟨hproc_le, ?_⟩
  unfold periodic_sleep
  omega

/-- C10 witness: the split at (1000, 10) does not wrap. -/
theorem periodic_process_le_witness :
    (1000:Nat) < 2 ^ 24 ∧ (10:Nat) ≤ 100 ∧
    (periodic_process 1000 10 ≤ 1000 ∧
     periodic_sleep 1000 10 = 1000 - periodic_process 1000 10) :=
  ⟨by decide, by decide, periodic_process_le 1000 10 (by decide) (by decide)⟩

/-! ### The per-worker driver loop (src/wlg.c `worker`, lines 427-478). -/

/-- The worker's termination instant (src/wlg.c:447-448): the clock sample
the worker itself takes right after returning from `sync_start`, with the
test duration added directly to the seconds field. -/
def worker_end_instant (wake_sample : Timespec) (conf_td : Nat) : Timespec :=
  { wake_sample with tv_sec := wake_sample.tv_sec + conf_td }

/-- Following the spec's words (for comparison with `worker_end_instant`):
`end_instant = barrier_release_instant + test_duration_seconds`, computed
from the single shared release instant recorded by the orchestrator. -/
def spec_end_instant (release_instant : Timespec) (conf_td : Nat) : Timespec :=
  { release_instant with tv_sec := release_instant.tv_sec + conf_td }

/-- The driver loop (src/wlg.c:450-473) abstracted over the sequence of
clock samples it will observe: at each iteration it samples the clock,
stops if the sample is at or after the deadline, and otherwise invokes the
worker model once.  Returns the number of worker-model invocations, or
`none` when the (finite) trace runs out before the deadline is reached. -/
def worker_loop (end_ts : Timespec) : List Timespec → Option Nat
  | [] => none
  | now :: rest =>
    if timespec_older now end_ts then some 0
    else (worker_loop end_ts rest).map (· + 1)

/-- C9 counterexample: a worker that wakes 5 ns after the release instant
(0,0) sets its deadline from its own sample — (5,5), not the spec's
release-plus-duration (5,0): the deadline is not computed from the single
shared release instant. -/
theorem worker_deadline_not_shared :
    worker_end_instant ⟨0, 5⟩ 5 ≠ spec_end_instant ⟨0, 0⟩ 5 := by decide

lemma worker_loop_first_hit (end_ts : Timespec) (samples : List Timespec)
    (i : Nat) (hi : i < samples.length)
    (hfirst : timespec_older (samples.get ⟨i, hi⟩) end_ts = true)
    (hbefore : ∀ j (hj : j < samples.length), j < i →
        timespec_older (samples.get ⟨j, hj⟩) end_ts = false) :
    worker_loop end_ts samples = some i := by
  induction samples generalizing i with
  | nil => simp at hi
  | cons now rest ih =>
    cases i with
    | zero =>
      unfold worker_loop
      rw [show (now :: rest).get ⟨0, hi⟩ = now from rfl] at hfirst
      rw [hfirst]
      rfl
    | succ i' =>
      have h0 : timespec_older now end_ts = false := by
        have := hbefore 0 (by simp) (Nat.succ_pos i')
        simpa using this
      unfold worker_loop
      rw [h0]
      have hi' : i' < rest.length := by simpa using hi
      have hrec : worker_loop end_ts rest = some i' := by
        apply ih i' hi'
        · simpa using hfirst
        · intro j hj hji
          have := hbefore (j + 1) (by simpa using hj) (Nat.succ_lt_succ hji)
          simpa using this
      rw [hrec]
      rfl

/-- C9 (amended): each worker computes its deadline from its own first
clock sample taken after being released (which may lag the shared release
instant), adding the test duration to the seconds field; its driver loop
then stops at the first sample at or after that deadline, having invoked
its worker model exactly once per earlier sample. -/
theorem worker_loop_stops_at_deadline (wake : Timespec) (td : Nat)
    (samples : List Timespec) (i : Nat) (hi : i < samples.length)
    (hfirst : timespec_older (samples.get ⟨i, hi⟩) (worker_end_instant wake td) = true)
    (hbefore : ∀ j (hj : j < samples.length), j < i →
        timespec_older (samples.get ⟨j, hj⟩) (worker_end_instant wake td) = false) :
    worker_loop (worker_end_instant wake td) samples = some i :=
  worker_loop_first_hit _ samples i hi hfirst hbefore

/-- C9 witness: a two-sample trace where only the second sample reaches
the deadline gives exactly one worker-model invocation. -/
theorem worker_loop_stops_at_deadline_witness :
    (timespec_older (([⟨0, 500⟩, ⟨1, 0⟩] : List Timespec).get ⟨1, by decide⟩)
        (worker_end_instant ⟨0, 0⟩ 1) = true) ∧
    worker_loop (worker_end_instant ⟨0, 0⟩ 1) [⟨0, 500⟩, ⟨1, 0⟩] = some 1 :=
  ⟨by decide,
    worker_loop_stops_at_deadline ⟨0, 0⟩ 1 [⟨0, 500⟩, ⟨1, 0⟩] 1
      (by decide) (by decide) (by decide)⟩

/-! ### Command-line parsing and worker setup (src/wlg.c `parse_cmdline`
lines 522-592 and `main` lines 626-738).  Option arguments are embedded as
character lists; `sscanf` is modelled for the numeric formats actually
used (`%hhu`, `%d`): skip leading spaces, read a digit run, fail when
there is none, store modulo the target width. -/

def isDigit (c : Char) : Bool := decide ('0' ≤ c) && decide (c ≤ '9')

def digitsVal (ds : List Char) : Nat :=
  ds.foldl (fun a c => a * 10 + (c.toNat - 48)) 0

/-- `sscanf(s, "%hhu", &x) == 1` model: `some (value mod 256)` on a digit
run, `none` (conversion count 0) otherwise. -/
def scan_u8 (s : List Char) : Option Nat :=
  let s' := s.dropWhile (fun c => c = ' ')
  let ds := s'.takeWhile isDigit
  if ds.isEmpty then none else some (digitsVal ds % 256)

/-- `sscanf(s, "%d", &x)` with the result stored in a `uint32_t`. -/
def scan_u32 (s : List Char) : Option Nat :=
  let s' := s.dropWhile (fun c => c = ' ')
  let ds := s'.takeWhile isDigit
  if ds.isEmpty then none else some (digitsVal ds % 2 ^ 32)

/-- Successive `strsep(&s, ",")` calls: split at commas. -/
def splitComma : List Char → List (List Char)
  | [] => [[]]
  | c :: cs =>
    if c = ',' then [] :: splitComma cs
    else
      match splitComma cs with
      | t :: ts => (c :: t) :: ts
      | [] => [[c]]

/-- The mutable configuration globals (src/wlg.c:74-84). -/
structure Config where
  conf_bw : Nat := 0
  conf_iw : Nat := 0
  conf_pw : Nat := 0
  conf_yw : Nat := 0
  conf_td : Nat := 5
  conf_iparams : List Char := []
  conf_pparams : List Char := []
  conf_yparams : List Char := []
deriving DecidableEq, Repr

/-- The command-line options relevant to the claims (an unknown option or
`--verbose` reaches the `default:` branch and `abort()`s; neither appears
in any claim and they are left out of the embedding). -/
inductive CmdOpt where
  | b (optarg : List Char)
  | d (optarg : List Char)
  | h
  | i (optarg : List Char)
  | p (optarg : List Char)
  | y (optarg : List Char)
deriving DecidableEq, Repr

inductive ParseResult where
  | exited (code : Int)
  | ok (cfg : Config)
deriving DecidableEq, Repr

/-- `parse_cmdline` (src/wlg.c:522-592).  Each count is read with
`sscanf("%hhu")`; a failed conversion on `-b`/`-i`/`-p`/`-y` jumps to
`exit_error` (`exit(-1)`), `-h` exits 0, while a failed conversion on
`-d` only prints an error and falls through to the next option. -/
def parse_cmdline : List CmdOpt → Config → ParseResult
  | [], cfg => .ok cfg
  | o :: rest, cfg =>
    match o with
    | .b a =>
      match scan_u8 a with
      | none => .exited (-1)
      | some v => parse_cmdline rest { cfg with conf_bw := v }
    | .d a =>
      match scan_u8 a with
      | none => parse_cmdline rest cfg
      | some v => parse_cmdline rest { cfg with conf_td := v }
    | .h => .exited 0
    | .i a =>
      match scan_u8 a with
      | none => .exited (-1)
      | some v => parse_cmdline rest { cfg with conf_iw := v, conf_iparams := a }
    | .p a =>
      match scan_u8 a with
      | none => .exited (-1)
      | some v => parse_cmdline rest { cfg with conf_pw := v, conf_pparams := a }
    | .y a =>
      match scan_u8 a with
      | none => .exited (-1)
      | some v => parse_cmdline rest { cfg with conf_yw := v, conf_yparams := a }

inductive WorkerKind where
  | batch | interactive | periodic | yield
deriving DecidableEq, Repr

structure WorkerSpec where
  kind : WorkerKind
  id : Nat
  p1 : Nat
  p2 : Nat
deriving DecidableEq, Repr

/-- Batch-worker allocation (src/wlg.c:656-664): ids `1..n`, no parameters,
no validation, one `create_worker` each. -/
def alloc_batch : Nat → Nat → List WorkerSpec
  | 0, _ => []
  | m+1, idx => ⟨.batch, idx, 0, 0⟩ :: alloc_batch m (idx + 1)

/-- One of the parameterised allocation loops of `main`
(src/wlg.c:667-738): for each of the `n` workers, two further `strsep`
tokens are read with `sscanf("%d")` into `p1`, `p2` (the variables keep
their previous value, here 0, when the conversion fails), the kind's
validation check runs — `exit(-1)` without creating that worker when it
fails — and otherwise the worker is created.  Interactive workers have no
check; Periodic rejects `p2 > 100`; Yield rejects `p2 > p1`. -/
def alloc_loop (kind : WorkerKind) (check : Nat → Nat → Bool) :
    Nat → Nat → List (List Char) → List WorkerSpec × Option Int
  | 0, _, _ => ([], none)
  | m+1, idx, toks =>
    let v1 := (scan_u32 (toks.headD [])).getD 0
    let v2 := (scan_u32 ((toks.drop 1).headD [])).getD 0
    if check v1 v2 then
      let rec' := alloc_loop kind check m (idx + 1) (toks.drop 2)
      (⟨kind, idx, v1, v2⟩ :: rec'.1, rec'.2)
    else ([], some (-1))

def periodic_check (_p d : Nat) : Bool := !(decide (100 < d))

def yield_check (p i : Nat) : Bool := !(decide (p < i))

/-- The worker-allocation phase of `main` (src/wlg.c:648-738): batch, then
interactive, then periodic, then yield workers, in order; each kind's
parameter stream first drops its leading count token.  Returns the workers
created (threads already launched) and `some code` when the process exited
during setup. -/
def main_setup (cfg : Config) : List WorkerSpec × Option Int :=
  let bw := alloc_batch cfg.conf_bw 1
  let itoks := (splitComma cfg.conf_iparams).drop 1
  let iw := alloc_loop .interactive (fun _ _ => true) cfg.conf_iw 1 itoks
  match iw.2 with
  | some c => (bw ++ iw.1, some c)
  | none =>
    let ptoks := (splitComma cfg.conf_pparams).drop 1
    let pw := alloc_loop .periodic periodic_check cfg.conf_pw 1 ptoks
    match pw.2 with
    | some c => (bw ++ iw.1 ++ pw.1, some c)
    | none =>
      let ytoks := (splitComma cfg.conf_yparams).drop 1
      let yw := alloc_loop .yield yield_check cfg.conf_yw 1 ytoks
      (bw ++ iw.1 ++ pw.1 ++ yw.1, yw.2)

/-- Whole configuration pipeline: `parse_cmdline` then `main`'s setup
phase.  `exit_code = none` means setup completed and the run proceeds to
launch-barrier release, worker execution and a final `return 0`. -/
def run_config (opts : List CmdOpt) : List WorkerSpec × Option Int :=
  match parse_cmdline opts {} with
  | .exited c => ([], some c)
  | .ok cfg => main_setup cfg

/-- C6: evaluation of the configuration pipeline at the claim's failing
inputs.  A malformed count (`-b x`) does exit `-1` with no worker, but a
malformed duration (`-d xyz -b 1`) does NOT exit: the `'d'` case of
`parse_cmdline` prints an error without jumping to `exit_error`, so setup
completes, the batch worker is launched and the process goes on to exit 0;
and a duty-cycle above 100 (`-b 1 -p 1,1000,150`) exits `-1` only after
the batch worker was already launched. -/
theorem config_validation_code_bug :
    run_config [.d ['x','y','z'], .b ['1']] = ([⟨.batch, 1, 0, 0⟩], none) ∧
    run_config [.b ['x']] = ([], some (-1)) ∧
    run_config [.b ['1'], .p ['1',',','1','0','0','0',',','1','5','0']] =
      ([⟨.batch, 1, 0, 0⟩], some (-1)) := by
  refine ⟨by decide, by decide, by decide⟩

/-- C7: the Yield allocation loop, fed the parsed `p1` (burst period) and
`p2` (yield interval), calls `exit(-1)` without creating the worker when
`interval > period`, and accepts the configuration — creating the worker —
whenever `interval ≤ period`, in particular at the boundary
`interval = period`. -/
theorem yield_validation (P I idx : Nat) (toks : List (List Char))
    (hp : (scan_u32 (toks.headD [])).getD 0 = P)
    (hi : (scan_u32 ((toks.drop 1).headD [])).getD 0 = I) :
    (P < I → alloc_loop .yield yield_check 1 idx toks = ([], some (-1))) ∧
    (I ≤ P → alloc_loop .yield yield_check 1 idx toks = ([⟨.yield, idx, P, I⟩], none)) := by
  constructor
  · intro hPI
    unfold alloc_loop
    rw [hp, hi]
    dsimp only
    have hc : yield_check P I = false := by
      simp [yield_check, hPI]
    rw [hc]
    simp
  · intro hIP
    unfold alloc_loop
    rw [hp, hi]
    dsimp only
    have hc : yield_check P I = true := by
      simp [yield_check]
      omega
    rw [hc]
    simp [alloc_loop]

/-- C7 witness: `interval = period = 5` is accepted and the worker created;
`interval = 6 > period = 5` exits `-1` creating none. -/
theorem yield_validation_witness :
    alloc_loop .yield yield_check 1 1 [['5'], ['5']] = ([⟨.yield, 1, 5, 5⟩], none) ∧
    alloc_loop .yield yield_check 1 1 [['5'], ['6']] = ([], some (-1)) :=
  ⟨(yield_validation 5 5 1 [['5'], ['5']] (by decide) (by decide)).2 (le_refl 5),
   (yield_validation 5 6 1 [['5'], ['6']] (by decide) (by decide)).1 (by decide)⟩

/-! ### The start barrier (src/wlg.c `sync_start` lines 269-278, `worker`
line 435, `main` lines 653 and 741-754), as an interleaving semantics for
one worker thread and the orchestrator.  `pthread_cond_wait` is modelled
WITHOUT spurious wakeups (the most favourable reading for the code): a
waiting thread wakes only when a broadcast occurs while it is waiting. -/

/-- Worker program counter through `worker`/`sync_start`:
set `wdata->pid` (line 435); lock `start_mtx` (line 273); call
`pthread_cond_wait`, atomically releasing the mutex (line 274); once woken
by a broadcast, reacquire the mutex (return of `cond_wait`); unlock
(line 275) and proceed past the barrier. -/
inductive WPC where
  | start | pidSet | locked | waiting | wakeable | relocked | passed
deriving DecidableEq, Repr

/-- Orchestrator program counter through `main`: holding `start_mtx` from
line 653, it unlocks (line 741), polls until the worker's `pid` field is
nonzero (lines 744-748), locks (line 750), broadcasts `start_cv` and
records the release instant (lines 752-753), unlocks (line 754). -/
inductive MPC where
  | holding | unlocked | sawReady | relocked | broadcasted | released
deriving DecidableEq, Repr

structure BState where
  wpc : WPC
  mpc : MPC
  mutexHeld : Bool
  pidSet : Bool
  broadcastDone : Bool
deriving DecidableEq, Repr

/-- The initial state: `main` holds `start_mtx`, the worker thread has just
been created, no readiness signalled, no broadcast yet. -/
def binit : BState := ⟨.start, .holding, true, false, false⟩

/-- One interleaving step of the worker/orchestrator pair. -/
inductive BStep : BState → BState → Prop where
  | wSetPid (m mu bd) :
      BStep ⟨.start, m, mu, false, bd⟩ ⟨.pidSet, m, mu, true, bd⟩
  | wLock (m p bd) :
      BStep ⟨.pidSet, m, false, p, bd⟩ ⟨.locked, m, true, p, bd⟩
  | wCondWait (m p bd) :
      BStep ⟨.locked, m, true, p, bd⟩ ⟨.waiting, m, false, p, bd⟩
  | wReacquire (m p bd) :
      BStep ⟨.wakeable, m, false, p, bd⟩ ⟨.relocked, m, true, p, bd⟩
  | wUnlock (m p bd) :
      BStep ⟨.relocked, m, true, p, bd⟩ ⟨.passed, m, false, p, bd⟩
  | mUnlockInit (w p bd) :
      BStep ⟨w, .holding, true, p, bd⟩ ⟨w, .unlocked, false, p, bd⟩
  | mPollReady (w mu bd) :
      BStep ⟨w, .unlocked, mu, true, bd⟩ ⟨w, .sawReady, mu, true, bd⟩
  | mLock (w p bd) :
      BStep ⟨w, .sawReady, false, p, bd⟩ ⟨w, .relocked, true, p, bd⟩
  | mBroadcastWake (p) :
      BStep ⟨.waiting, .relocked, true, p, false⟩ ⟨.wakeable, .broadcasted, true, p, true⟩
  | mBroadcastNoWaiter (w p) :
      w ≠ WPC.waiting →
      BStep ⟨w, .relocked, true, p, false⟩ ⟨w, .broadcasted, true, p, true⟩
  | mUnlockAfter (w p bd) :
      BStep ⟨w, .broadcasted, true, p, bd⟩ ⟨w, .released, false, p, bd⟩

/-- Reachability from the initial barrier state. -/
def BReachable (s : BState) : Prop := Relation.ReflTransGen BStep binit s

/-- C8: an execution in which the orchestrator broadcasts the one-shot
start signal before the worker has reached the condition-variable wait
point.  The readiness flag (`wdata->pid`) is written before `sync_start`,
so the orchestrator's readiness poll can see it, lock, broadcast and
unlock while the worker has not yet blocked — refuting "the broadcast
happens only after every one of the N workers has reached the barrier
wait point".  Moreover from that point the worker can never pass the
barrier: the single broadcast has been consumed, so `pthread_cond_wait`
blocks it forever. -/
lemma barrier_stuck_inv (s' : BState)
    (h : Relation.ReflTransGen BStep ⟨.pidSet, .released, false, true, true⟩ s') :
    s'.mpc = MPC.released ∧
    (s'.wpc = WPC.pidSet ∨ s'.wpc = WPC.locked ∨ s'.wpc = WPC.waiting) := by
  induction h with
  | refl => exact ⟨rfl, Or.inl rfl⟩
  | tail hab hbc ih =>
    obtain ⟨hm, hw⟩ := ih
    cases hbc <;> simp_all

theorem barrier_broadcast_before_wait :
    ∃ s : BState, BReachable s ∧
      s.broadcastDone = true ∧ s.wpc = WPC.pidSet ∧
      (∀ s', Relation.ReflTransGen BStep s s' → s'.wpc ≠ WPC.passed) := by
  refine ⟨⟨.pidSet, .released, false, true, true⟩, ?_, rfl, rfl, ?_⟩
  · exact .head (.wSetPid _ _ _)
      (.head (.mUnlockInit _ _ _)
        (.head (.mPollReady _ _ _)
          (.head (.mLock _ _ _)
            (.head (.mBroadcastNoWaiter _ _ (by decide))
              (.head (.mUnlockAfter _ _ _) .refl)))))
  · intro s' h hpass
    have := barrier_stuck_inv s' h
    rw [hpass] at this
    rcases this with ⟨_, h1 | h1 | h1⟩ <;> exact absurd h1 (by decide)

end Wlg
